import Mathlib

/-!
Shallow embedding of the Peergrade survey-ingestion pipeline
(CSV parsing, column classification, distribution and correlation
computation, summarization degradation, and the session registry),
translated from the TypeScript sources, together with proofs settling
the specification claims.

Conventions of the embedding:
* JavaScript strings are Lean `String`s; character-level loops work on
  `String.data : List Char`.
* A JavaScript object used as a string-keyed record is an insertion-ordered
  association list `List (String × β)`; property read is `alookup`,
  property write is `assocSet` (replace if present, append otherwise).
* JavaScript numbers that the program only ever uses as counts are `Nat`;
  the one fractional computation (`toFixed(1)` of a percentage) is modelled
  over `ℚ` with round-half-up to one decimal.
* `Array.prototype.sort` with comparator `(a, b) => b.value - a.value` is a
  stable sort; it is modelled by sorting the index-tagged list by the strict
  lexicographic order (count descending, original index ascending), which is
  the unique stable result.
-/

namespace Peergrade

/-- Whitespace test used by `String.prototype.trim`, over the ASCII
whitespace characters that can occur in CSV text. -/
def isWsChar (c : Char) : Bool :=
  c = ' ' || c = '\t' || c = '\n' || c = '\r'

/-- `trim` on a character list: drop whitespace from both ends. -/
def trimChars (cs : List Char) : List Char :=
  ((cs.dropWhile isWsChar).reverse.dropWhile isWsChar).reverse

/-- JavaScript `String.prototype.trim`. -/
def jsTrim (s : String) : String :=
  ⟨trimChars s.data⟩

/-- JavaScript property read `obj[k]` on a string-keyed record:
the first binding of the key, if any. -/
def alookup (k : String) : List (String × β) → Option β
  | [] => none
  | (k', v) :: rest => if k' = k then some v else alookup k rest

/-- JavaScript property write `obj[k] = v`: replace the binding if the key is
present, append it otherwise. -/
def assocSet (m : List (String × β)) (k : String) (v : β) : List (String × β) :=
  match m with
  | [] => [(k, v)]
  | (k', v') :: rest => if k' = k then (k, v) :: rest else (k', v') :: assocSet rest k v

/-- A survey column as produced by the parsers (`SurveyColumn` in types.ts);
`type` is always the literal string "categorical" in the sources. -/
structure SurveyColumn where
  id : String
  label : String
  type : String
  isVisualizable : Bool
deriving DecidableEq, Repr

/-- A raw response row: a record from column id to the raw string value. -/
abbrev RawResponse := List (String × String)

/-- The session record persisted by the registry (the fields the registry
logic reads or writes; presentational flags kept for fidelity). -/
structure Session where
  id : String
  title : String
  description : String
  sourceName : String
  participationCount : Nat
  lastUpdated : String
  isPublic : Bool
  columns : List SurveyColumn
  responses : List RawResponse
  showCharts : Bool
  showAiInsights : Bool
  enableCsvDownload : Bool
  columnDescriptions : List (String × String)
deriving DecidableEq

/-! ### Session registry (App.tsx `RegistryStore`, part_011 `NodeServer`) -/

/-- `RegistryStore.sync` merge step: seed sessions first, then the locally
cached sessions whose id does not occur in the seed
(`filteredLocal = sessions.filter(s => !seedIds.has(s.id))`;
`sessions = [...seedData, ...filteredLocal]`).  The date-descending sort of
the returned array is a permutation and is not modelled. -/
def syncMerge (seed cached : List Session) : List Session :=
  seed ++ cached.filter (fun s => decide (s.id ∉ seed.map Session.id))

/-- `RegistryStore.save([session, ...current])` inside `commit`: prepend the
new session to the current collection. -/
def commitStore (current : List Session) (s : Session) : List Session :=
  s :: current

/-- `RegistryStore.update(id, updates)` specialised to the visibility toggle
`{ isPublic: !session.isPublic }` used by `toggleVisibility`. -/
def toggleVisibility (l : List Session) (i : String) : List Session :=
  l.map (fun s => if s.id = i then { s with isPublic := ¬ s.isPublic } else s)

/-- `RegistryStore.detach` / `NodeServer.delete`:
`current.filter(s => s.id !== id)`. -/
def detachById (l : List Session) (i : String) : List Session :=
  l.filter (fun s => decide (s.id ≠ i))

/-- The list of sessions a non-privileged consumer sees
(`sessions.filter(s => s.isPublic)` in `HomePage`). -/
def publicList (l : List Session) : List Session :=
  l.filter (fun s => s.isPublic)

/-- Find a session by id (lookup used to state the merge claims). -/
def findById (l : List Session) (i : String) : Option Session :=
  l.find? (fun s => s.id = i)

/-! ### Summarization client (geminiService.ts) and ingestion (App.tsx) -/

/-- `generateQuestionDescriptions`: one batched request covers every column;
the network/schema outcome is the parameter (`some parsed` when the call
succeeds and the JSON parses, `none` on timeout, auth/quota failure or a
schema-invalid response).  On failure the catch block returns `{}`. -/
def generateQuestionDescriptions (outcome : Option (List (String × String))) :
    List (String × String) :=
  match outcome with
  | some parsed => parsed
  | none => []

/-- The placeholder a session view shows when a column has no stored
description (`description || "Awaiting structural analysis..."`). -/
def fallbackText : String :=
  "Awaiting structural analysis of this data segment..."

/-- The description displayed for a column: the stored one when present and
non-empty, the fallback placeholder otherwise. -/
def displayedDescription (s : Session) (c : SurveyColumn) : String :=
  match alookup c.id s.columnDescriptions with
  | some d => if d = "" then fallbackText else d
  | none => fallbackText

/-- The session object built by the main App.tsx `handleFileUpload`
(`isPublic: false, // Default to private until published`). -/
def mkSessionV1 (idStr title descr src time : String)
    (columns : List SurveyColumn) (responses : List RawResponse)
    (descriptions : List (String × String)) : Session :=
  { id := idStr, title := title, description := descr, sourceName := src,
    participationCount := responses.length, lastUpdated := time,
    isPublic := false, columns := columns, responses := responses,
    showCharts := true, showAiInsights := true, enableCsvDownload := true,
    columnDescriptions := descriptions }

/-- The session object built by the part_011 `handleFileUpload` variant
(`isPublic: true`), which persists through `NodeServer.persist`. -/
def mkSessionNodeV (idStr title descr src time : String)
    (columns : List SurveyColumn) (responses : List RawResponse)
    (descriptions : List (String × String)) : Session :=
  { id := idStr, title := title, description := descr, sourceName := src,
    participationCount := responses.length, lastUpdated := time,
    isPublic := true, columns := columns, responses := responses,
    showCharts := true, showAiInsights := true, enableCsvDownload := true,
    columnDescriptions := descriptions }

/-- Ingestion tail of the main `handleFileUpload`: build the session from the
parsed columns/responses and the summarization outcome, then commit it on top
of the synced registry. -/
def ingestV1 (idStr title descr src time : String)
    (columns : List SurveyColumn) (responses : List RawResponse)
    (outcome : Option (List (String × String)))
    (seed cached : List Session) : Session × List Session :=
  let s := mkSessionV1 idStr title descr src time columns responses
    (generateQuestionDescriptions outcome)
  (s, commitStore (syncMerge seed cached) s)

/-! ### Distribution engine (`getColumnDist`) -/

/-- One entry of a column distribution (`{ name, value, percentage }`);
`percentage` holds the numeric value rendered by `toFixed(1)`. -/
structure DistEntry where
  name : String
  value : Nat
  percentage : ℚ
deriving DecidableEq, Repr

/-- Round to one decimal, modelling `toFixed(1)` (round half up). -/
def round1 (x : ℚ) : ℚ :=
  ((round (10 * x) : ℤ) : ℚ) / 10

/-- `totalValid > 0 ? ((value / totalValid) * 100).toFixed(1) : '0'`. -/
def pct (c t : Nat) : ℚ :=
  if 0 < t then round1 ((c : ℚ) * 100 / (t : ℚ)) else 0

/-- `dist[k] = (dist[k] || 0) + 1` on an insertion-ordered count record. -/
def bump (dist : List (String × Nat)) (k : String) : List (String × Nat) :=
  match dist with
  | [] => [(k, 1)]
  | (k', n) :: rest => if k' = k then (k', n + 1) :: rest else (k', n) :: bump rest k

/-- The trimmed values counted by `getColumnDist`'s loop, in response order:
one value per response whose raw value is present and not the empty string
(the guard `val !== undefined && val !== null && val !== ''` runs before
trimming). -/
def validVals (responses : List RawResponse) (cid : String) : List String :=
  responses.filterMap (fun r =>
    match alookup cid r with
    | some v => if v ≠ "" then some (jsTrim v) else none
    | none => none)

/-- Strict order used to model the stable `sort((a, b) => b.value - a.value)`
on index-tagged entries: count descending, original position ascending. -/
def entryBefore (x y : Nat × DistEntry) : Bool :=
  decide (y.2.value < x.2.value) || (decide (x.2.value = y.2.value) && decide (x.1 < y.1))

/-- Insert into a list sorted by `entryBefore`. -/
def insertEntry (x : Nat × DistEntry) : List (Nat × DistEntry) → List (Nat × DistEntry)
  | [] => [x]
  | y :: ys => if entryBefore x y then x :: y :: ys else y :: insertEntry x ys

/-- Insertion sort by `entryBefore`. -/
def sortTagged (l : List (Nat × DistEntry)) : List (Nat × DistEntry) :=
  l.foldr insertEntry []

/-- Stable sort by count descending: tag each entry with its original index,
sort by the strict order, drop the tags.  On index-tagged input this yields
exactly the result of JavaScript's stable `Array.prototype.sort`. -/
def stableSortDesc (l : List DistEntry) : List DistEntry :=
  (sortTagged l.enum).map Prod.snd

/-- Numeric value of a string read as base-10 digit characters. -/
def digitsVal (cs : List Char) : Nat :=
  cs.foldl (fun n c => 10 * n + (c.toNat - 48)) 0

/-- The number a record key denotes when read as base-10 digits. -/
def keyNum (s : String) : Nat :=
  digitsVal s.data

/-- Whether a string is an ECMAScript array-index key: the canonical decimal
representation of an integer below `2^32 - 1`. -/
def isArrayIndexKey (s : String) : Bool :=
  decide (Nat.repr (keyNum s) = s) && decide (keyNum s < 4294967295)

/-- Insert a key into a list sorted by `keyNum` ascending. -/
def insertKey (s : String) : List String → List String
  | [] => [s]
  | t :: ts => if keyNum s ≤ keyNum t then s :: t :: ts else t :: insertKey s ts

/-- Insertion sort of keys by `keyNum` ascending. -/
def sortKeys (l : List String) : List String :=
  l.foldr insertKey []

/-- The ECMAScript own-property enumeration order of a key list
(`OrdinaryOwnPropertyKeys`): array-index keys first, in ascending numeric
order, then the remaining string keys in insertion order. -/
def jsKeyOrder (l : List String) : List String :=
  sortKeys (l.filter isArrayIndexKey) ++ l.filter (fun k => !isArrayIndexKey k)

/-- Insert a count entry into a list sorted by `keyNum` of the key. -/
def insertByNum (p : String × Nat) : List (String × Nat) → List (String × Nat)
  | [] => [p]
  | q :: qs => if keyNum p.1 ≤ keyNum q.1 then p :: q :: qs else q :: insertByNum p qs

/-- Insertion sort of count entries by `keyNum` of the key, ascending. -/
def sortByNum (l : List (String × Nat)) : List (String × Nat) :=
  l.foldr insertByNum []

/-- `Object.entries` on a string-keyed count record: array-index keys come
first in ascending numeric order, then the remaining keys in insertion
order. -/
def jsEntries (m : List (String × Nat)) : List (String × Nat) :=
  sortByNum (m.filter (fun p => isArrayIndexKey p.1)) ++
    m.filter (fun p => !isArrayIndexKey p.1)

/-- `getColumnDist`: count each trimmed present non-empty value, enumerate
the count record in `Object.entries` order, attach percentages over
`totalValid`, sort by count descending (stable).  `totalValid` is the number
of counted values. -/
def getColumnDist (responses : List RawResponse) (cid : String) :
    List DistEntry × Nat :=
  let vals := validVals responses cid
  let dist := jsEntries (vals.foldl bump [])
  let totalValid := vals.length
  (stableSortDesc (dist.map (fun p => ⟨p.1, p.2, pct p.2 totalValid⟩)), totalValid)

/-- Reference definition for the distribution claims: the distinct elements
of a list in first-occurrence order. -/
def dedupFirst : List String → List String
  | [] => []
  | x :: xs => x :: (dedupFirst xs).filter (fun y => y ≠ x)

/-- Reference definition of the unsorted distribution: the distinct counted
values in record enumeration order (array-index-like values first, ascending
numerically, then the rest in first-occurrence order), each with its
multiplicity and percentage. -/
def specDistEntries (vals : List String) : List DistEntry :=
  (jsKeyOrder (dedupFirst vals)).map
    (fun s => ⟨s, vals.count s, pct (vals.count s) vals.length⟩)

/-- Enumeration precedence of two distinct counted values: `a` is listed
before `b` when both are array-index keys and `a` is numerically smaller,
when only `a` is an array-index key, or when neither is and `a` occurs first
in the counted value sequence. -/
def enumBefore (vals : List String) (a b : String) : Prop :=
  (isArrayIndexKey a = true ∧ isArrayIndexKey b = true ∧ keyNum a < keyNum b) ∨
  (isArrayIndexKey a = true ∧ isArrayIndexKey b = false) ∨
  (isArrayIndexKey a = false ∧ isArrayIndexKey b = false ∧
    vals.indexOf a < vals.indexOf b)

/-! ### Correlation builder (`calculateCorrelationMap`) -/

/-- `String(r[col.id] || 'Unknown')`: a missing or empty value is coerced to
the "Unknown" bucket. -/
def orUnknown (r : RawResponse) (k : String) : String :=
  match alookup k r with
  | some v => if v = "" then "Unknown" else v
  | none => "Unknown"

/-- `if (!counts[valA]) counts[valA] = {}; counts[valA][valB] += 1` on a
two-level insertion-ordered count record. -/
def bump2 (m : List (String × List (String × Nat))) (a b : String) :
    List (String × List (String × Nat)) :=
  match m with
  | [] => [(a, [(b, 1)])]
  | (a', inner) :: rest =>
    if a' = a then (a', bump inner b) :: rest else (a', inner) :: bump2 rest a b

/-- The two-level count map for one column pair: one increment per response. -/
def pairCounts (responses : List RawResponse) (aId bId : String) :
    List (String × List (String × Nat)) :=
  responses.foldl (fun m r => bump2 m (orUnknown r aId) (orUnknown r bId)) []

/-- All ordered pairs `(l[i], l[j])` with `i < j`, in the nested-loop order of
the source (`i` outer, `j` inner). -/
def allPairs : List α → List (α × α)
  | [] => []
  | x :: xs => xs.map (fun y => (x, y)) ++ allPairs xs

/-- The pair key, \x7b`colA.label` x `colB.label`\x7d rendered as
`label_A ++ " x " ++ label_B`. -/
def pairKey (a b : SurveyColumn) : String :=
  a.label ++ " x " ++ b.label

/-- `calculateCorrelationMap` (App.tsx / part_012 variant): over the first 8
visualizable columns, for every pair `i < j` store the two-level count map
under the pair key.  The `JSON.stringify` at the end serialises this record
and is not modelled. -/
def calculateCorrelationMap (responses : List RawResponse)
    (columns : List SurveyColumn) :
    List (String × List (String × List (String × Nat))) :=
  let targetCols := (columns.filter (fun c => c.isVisualizable)).take 8
  (allPairs targetCols).foldl
    (fun m p => assocSet m (pairKey p.1 p.2) (pairCounts responses p.1.id p.2.id)) []

/-- Total of all counts in a two-level count map. -/
def sumCounts2 (m : List (String × List (String × Nat))) : Nat :=
  (m.map (fun p => (p.2.map Prod.snd).sum)).sum

/-! ### CSV parsing -/

/-- Split on `/\r?\n/`: a newline, optionally preceded by a carriage return,
separates lines. -/
def splitLinesAux : List Char → List Char → List (List Char)
  | [], cur => [cur.reverse]
  | '\r' :: '\n' :: rest, cur => cur.reverse :: splitLinesAux rest []
  | '\n' :: rest, cur => cur.reverse :: splitLinesAux rest []
  | c :: rest, cur => splitLinesAux rest (c :: cur)

/-- Split a character list on `/\r?\n/`. -/
def splitLines (cs : List Char) : List (List Char) :=
  splitLinesAux cs []

/-- `String.prototype.split` with a one-character separator. -/
def splitCharAux (sep : Char) : List Char → List Char → List (List Char)
  | [], cur => [cur.reverse]
  | c :: rest, cur =>
    if c = sep then cur.reverse :: splitCharAux sep rest []
    else splitCharAux sep rest (c :: cur)

/-- Split a character list at every occurrence of `sep`. -/
def splitChar (sep : Char) (cs : List Char) : List (List Char) :=
  splitCharAux sep cs []

/-- `replace(/^"|"$/g, '')`: drop one leading and one trailing double quote,
each if present. -/
def stripOuterQuotes (cs : List Char) : List Char :=
  let cs1 := match cs with
    | '"' :: rest => rest
    | other => other
  match cs1.getLast? with
  | some '"' => cs1.dropLast
  | _ => cs1

/-- `hay.includes(needle)` on strings. -/
def jsContains (hay needle : String) : Bool :=
  decide (needle.data <:+: hay.data)

/-- `String.prototype.toLowerCase`, character by character. -/
def jsToLower (s : String) : String :=
  ⟨s.data.map Char.toLower⟩

/-- Field tokenizer of the quoted-CSV parser (App.tsx second variant /
part_012): a doubled quote appends a literal quote and skips a character, a
single quote toggles the in-quotes state, an unquoted comma pushes the
trimmed current field, anything else is appended to the current field.  The
arm for a lone final quote inlines the toggle followed by the end-of-line
push (the toggled state is never read). -/
def tokenizeAux : List Char → Bool → List Char → List String → List String
  | [], _, current, acc => acc ++ [⟨trimChars current⟩]
  | ['"'], _, current, acc => acc ++ [⟨trimChars current⟩]
  | '"' :: '"' :: rest, inQ, current, acc => tokenizeAux rest inQ (current ++ ['"']) acc
  | '"' :: c :: rest, inQ, current, acc => tokenizeAux (c :: rest) (!inQ) current acc
  | ',' :: rest, inQ, current, acc =>
    if inQ then tokenizeAux rest inQ (current ++ [',']) acc
    else tokenizeAux rest inQ [] (acc ++ [⟨trimChars current⟩])
  | c :: rest, inQ, current, acc => tokenizeAux rest inQ (current ++ [c]) acc

/-- Tokenize one data line (initial state: outside quotes, empty field). -/
def tokenizeJS (line : List Char) : List String :=
  tokenizeAux line false [] []

/-- Header splitter of the quoted-CSV parser: the regex
`/,(?=(?:(?:[^"]*"){2})*[^"]*$)/` splits at a comma exactly when the rest of
the string contains an even number of double quotes. -/
def splitHdrAux : List Char → List Char → List (List Char)
  | [], cur => [cur.reverse]
  | c :: rest, cur =>
    if c = ',' ∧ (rest.countP (fun x => x = '"')) % 2 = 0 then
      cur.reverse :: splitHdrAux rest []
    else splitHdrAux rest (c :: cur)

/-- Split a header line at quote-balanced commas. -/
def splitHdr (cs : List Char) : List (List Char) :=
  splitHdrAux cs []

/-- The trimmed values of column `i` over the tokenized rows, empty strings
removed: `tempResponses.map(row => (row[i] || '').trim()).filter(v => v !== '')`. -/
def colValuesV2 (tempResponses : List (List String)) (i : Nat) : List String :=
  (tempResponses.map (fun row => jsTrim (row.getD i ""))).filter (fun v => v ≠ "")

/-- The classifier of the quoted-CSV parser:
`totalResponsesInCol > 1 && uniqueCount > 1 && (uniqueCount / totalResponsesInCol < 0.9)`
(the division compared over `ℚ`: `unique / total < 9/10` iff `10 * unique < 9 * total`
for `total > 0`, and the first conjunct already fails when `total = 0`). -/
def classifyV2 (valuesInCol : List String) : Bool :=
  let uniqueCount := valuesInCol.toFinset.card
  let total := valuesInCol.length
  decide (1 < total ∧ 1 < uniqueCount ∧ 10 * uniqueCount < 9 * total)

/-- Column construction of the quoted-CSV parser: skip headers whose
lowercase text equals `"timestamp"` exactly, keep the raw header index
(`validIndices`) with the built column. -/
def columnsV2 (rawHeaders : List String) (tempResponses : List (List String)) :
    List (Nat × SurveyColumn) :=
  rawHeaders.enum.filterMap (fun p =>
    if jsToLower p.2 = "timestamp" then none
    else some (p.1, { id := "col_" ++ toString p.1, label := p.2,
                      type := "categorical",
                      isVisualizable := classifyV2 (colValuesV2 tempResponses p.1) }))

/-- `validIndices.forEach((csvIdx, colIdx) => row[columns[colIdx].id] = values[csvIdx] || '')`. -/
def buildRowV2 (pairs : List (Nat × SurveyColumn)) (values : List String) : RawResponse :=
  pairs.map (fun p => (p.2.id, values.getD p.1 ""))

/-- The quoted-CSV parser (`parseCSV` of the App.tsx second variant /
part_012): non-blank lines, regex-split headers stripped of outer quotes and
trimmed, tokenized data rows, classified columns, and one response record
per data row. -/
def parseCSV_v2 (csv : String) : List SurveyColumn × List RawResponse :=
  match (splitLines csv.data).filter (fun l => trimChars l ≠ []) with
  | [] => ([], [])
  | hdr :: rest =>
    let rawHeaders := (splitHdr hdr).map (fun h => jsTrim ⟨stripOuterQuotes h⟩)
    let tempResponses := rest.map tokenizeJS
    let pairs := columnsV2 rawHeaders tempResponses
    (pairs.map Prod.snd, tempResponses.map (buildRowV2 pairs))

/-- Header list of the plain parser: `lines[0].split(',')`, each field
trimmed and stripped of outer quotes (in that order). -/
def headersV1 (line : List Char) : List String :=
  (splitChar ',' line).map (fun h => ⟨stripOuterQuotes (trimChars h)⟩)

/-- `headers.forEach((h, originalIndex) => ...)`: match each raw header back
to its column by label and assign the corresponding value. -/
def buildRowV1 (headers : List String) (columns : List SurveyColumn)
    (values : List String) : RawResponse :=
  headers.enum.foldl (fun r p =>
    match columns.find? (fun c => c.label = p.2) with
    | some col => assocSet r col.id (values.getD p.1 "")
    | none => r) []

/-- The plain parser (`parseCSV` of the main App.tsx variant): splits on
commas without quote handling, drops headers whose lowercase text contains
`"timestamp"`, marks every column visualizable, and returns
`{ columns: [], responses: [] }` whenever fewer than two non-blank lines are
present. -/
def parseCSV_v1 (csv : String) : List SurveyColumn × List RawResponse :=
  let lines := (splitLines csv.data).filter (fun l => trimChars l ≠ [])
  if lines.length < 2 then ([], [])
  else
    let headers := headersV1 (lines.headD [])
    let filteredHeaders := headers.filter (fun h => !(jsContains (jsToLower h) "timestamp"))
    let columns := filteredHeaders.enum.map (fun p =>
      ({ id := "q" ++ toString p.1, label := p.2, type := "categorical",
         isVisualizable := true } : SurveyColumn))
    let responses := (lines.drop 1).map (fun lineCs =>
      let values := (splitChar ',' lineCs).map
        (fun v => (⟨stripOuterQuotes (trimChars v)⟩ : String))
      buildRowV1 headers columns values)
    (columns, responses)

/-- One per-question analysis of the csvService pipeline. -/
structure QuestionAnalysis where
  question : String
  chartTypeBar : Bool
  data : List DistEntry
  summary : String
deriving DecidableEq

/-- `parseCSVData` (services/csvService.ts): trim the whole text, split on
bare newlines and commas, return `(0, [])` when fewer than two lines are
present; otherwise count every row value (missing or empty becomes
"No Response"), enumerate the count record in `Object.entries` order, attach
percentages over the row count, sort by count descending, and take the
per-question summary from the external service (modelled as the `oracle`
argument). -/
def parseCSVData (oracle : String → List DistEntry → String) (csvContent : String) :
    Nat × List QuestionAnalysis :=
  let lines := (splitChar '\n' (trimChars csvContent.data)).map (splitChar ',')
  if lines.length < 2 then (0, [])
  else
    let headers := (lines.headD []).map
      (fun h => (⟨stripOuterQuotes (trimChars h)⟩ : String))
    let rows := lines.drop 1
    let timestampIdx := headers.findIdx? (fun h => jsContains (jsToLower h) "timestamp")
    let analyses := headers.enum.filterMap (fun p =>
      if timestampIdx = some p.1 then none
      else
        let rawVals := rows.map (fun row =>
          let v : String := ⟨stripOuterQuotes (trimChars (row.getD p.1 []))⟩
          if v = "" then "No Response" else v)
        let counts := rawVals.foldl bump []
        let total := rows.length
        let sortedData := stableSortDesc ((jsEntries counts).map (fun q => ⟨q.1, q.2, pct q.2 total⟩))
        some { question := p.2, chartTypeBar := decide (5 < sortedData.length),
               data := sortedData, summary := oracle p.2 sortedData })
    (rows.length, analyses)

/-! ### Reference classifier from the specification (for claim C1) -/

/-- The specification's email shape `^[^\s@]+@[^\s@]+\.[^\s@]+$`: exactly one
`@`, no whitespace anywhere, a non-empty local part, and a domain containing
a dot with non-empty text on both sides. -/
def specEmailShaped (s : String) : Bool :=
  let cs := s.data
  decide (cs.countP (fun c => c = '@') = 1) &&
  cs.all (fun c => !(isWsChar c)) &&
  (let i := cs.findIdx (fun c => c = '@')
   let u := cs.take i
   let d := cs.drop (i + 1)
   decide (u ≠ []) && decide (d ≠ []) && ((d.drop 1).dropLast.contains '.'))

/-- The column-visualizability rule exactly as the specification (section
4.2) and claim C1 state it, over a column's non-empty values: not
visualizable iff `totalValid <= 1`, or `uniqueCount <= 1`, or
`uniqueCount/totalValid > 0.8` with `totalValid > 5`, or
`averageLength > 100`, or a majority of values are email-shaped, or
`uniqueCount >= 50`.  The two fractional comparisons are written in cleared
integer form (`10·unique > 8·total` and `Σ length > 100·total`), equivalent
for `totalValid > 0`; a column with `totalValid = 0` is already excluded by
the first clause. -/
def specVisualizable (valuesInCol : List String) : Bool :=
  let totalValid := valuesInCol.length
  let uniqueCount := valuesInCol.toFinset.card
  let totalLength := (valuesInCol.map (fun v => v.length)).sum
  let emailMajority := totalValid < 2 * (valuesInCol.countP specEmailShaped)
  !(decide (totalValid ≤ 1) || decide (uniqueCount ≤ 1) ||
    (decide (8 * totalValid < 10 * uniqueCount) && decide (5 < totalValid)) ||
    decide (100 * totalValid < totalLength) || decide emailMajority ||
    decide (50 ≤ uniqueCount))

/-! ### Auxiliary definitions used to state and instantiate the claims -/

/-- Count held under a key of an insertion-ordered count record. -/
def lcount (d : List (String × Nat)) (s : String) : Nat :=
  (alookup s d).getD 0

/-- Headers the quoted-CSV parser derives from its first non-blank line. -/
def v2HeadersOf (csv : String) : List String :=
  match (splitLines csv.data).filter (fun l => trimChars l ≠ []) with
  | [] => []
  | hdr :: _ => (splitHdr hdr).map (fun h => jsTrim ⟨stripOuterQuotes h⟩)

/-- Tokenized data rows of the quoted-CSV parser. -/
def v2RowsOf (csv : String) : List (List String) :=
  ((((splitLines csv.data).filter (fun l => trimChars l ≠ []))).drop 1).map tokenizeJS

/-- A session record of the csvService/storageService pipeline (part_002):
its `Session` type in that variant. -/
structure SessionP002 where
  id : String
  title : String
  description : String
  createdAt : String
  responseCount : Nat
  isPublic : Bool
  analyses : List QuestionAnalysis
deriving DecidableEq

/-- The session object built by the part_002 `handleFileUpload`
(`isPublic: false`). -/
def mkSessionP002 (idStr title descr created : String) (rc : Nat)
    (analyses : List QuestionAnalysis) : SessionP002 :=
  { id := idStr, title := title, description := descr, createdAt := created,
    responseCount := rc, isPublic := false, analyses := analyses }

/-- Concrete column used by the claim witnesses. -/
def sampleColumn : SurveyColumn :=
  ⟨"q0", "Major", "categorical", true⟩

/-- Concrete session used by the claim witnesses. -/
def sampleSession : Session :=
  mkSessionV1 "sav-1" "Cohort" "Desc" "data.csv" "2024-01-01"
    [sampleColumn] [[("q0", "CS")]] [("q0", "Mostly CS")]

/-- Second concrete session (distinct id, public) used by the witnesses. -/
def sampleSession2 : Session :=
  { sampleSession with id := "sav-2", isPublic := true }

/-- A cached session sharing the seed session's id (for the merge witness). -/
def sampleConflict : Session :=
  { sampleSession2 with id := "sav-1", title := "Stale local copy" }

/-- Second concrete column used by the witnesses. -/
def sampleColumn2 : SurveyColumn :=
  ⟨"q1", "GPA", "categorical", true⟩

/-- A concrete ingestion whose summarization call failed (outcome `none`). -/
def failedIngest : Session × List Session :=
  ingestV1 "sav-7" "Cohort" "Desc" "f.csv" "2024-01-01"
    [sampleColumn, sampleColumn2] [[("q0", "CS"), ("q1", "3.5")]] none [] []

/-! ## Helper lemmas -/

theorem alookup_eq_none {β : Type} (l : List (String × β)) (s : String)
    (h : s ∉ l.map Prod.fst) : alookup s l = none := by
  induction l with
  | nil => rfl
  | cons p rest ih =>
    obtain ⟨k, v⟩ := p
    simp only [List.map_cons, List.mem_cons, not_or] at h
    rw [alookup, if_neg (fun hh => h.1 hh.symm), ih h.2]

theorem find_by_id_of_mem (l : List Session) (s : Session)
    (hn : (l.map Session.id).Nodup) (hm : s ∈ l) :
    findById l s.id = some s := by
  induction l with
  | nil => cases hm
  | cons t rest ih =>
    simp only [List.map_cons, List.nodup_cons] at hn
    by_cases ht : t.id = s.id
    · rcases List.mem_cons.mp hm with h | h
      · subst h
        simp [findById, List.find?_cons_of_pos, ht]
      · exact absurd (ht ▸ List.mem_map_of_mem Session.id h) hn.1
    · have hs : s ∈ rest := by
        rcases List.mem_cons.mp hm with h | h
        · exact absurd (h ▸ rfl) ht
        · exact h
      have := ih hn.2 hs
      simpa [findById, List.find?_cons_of_neg, ht] using this

/-! ## Claim theorems -/

/-- C10: the registry's delete operation (`RegistryStore.detach` /
`NodeServer.delete`) removes exactly the sessions whose id equals the given
id, returns a sublist of the original collection (so every surviving session
is unchanged in all fields and in relative order), and is the identity when
the id is absent. -/
theorem C10_detach_frame (l : List Session) (i : String) :
    (∀ s : Session, s ∈ detachById l i ↔ s ∈ l ∧ s.id ≠ i) ∧
    (detachById l i).Sublist l ∧
    ((∀ s ∈ l, s.id ≠ i) → detachById l i = l) := by
  refine ⟨fun s => ?_, List.filter_sublist _, fun h => ?_⟩
  · simp [detachById]
  · rw [detachById, List.filter_eq_self.mpr]
    intro a ha
    simpa using h a ha

/-- Witness for C10 at a concrete collection and an absent id. -/
theorem C10_detach_frame_w :
    detachById [sampleSession, sampleSession2] "sav-zzz" =
      [sampleSession, sampleSession2] :=
  (C10_detach_frame [sampleSession, sampleSession2] "sav-zzz").2.2 (by decide)

/-- C8 counterexample: the part_011 ingestion path creates its session with
`isPublic: true`, so the claim "every newly ingested Session is created with
isPublic = false" fails on that cited source. -/
theorem C8_cex :
    (mkSessionNodeV "sav-9" "T" "D" "f.csv" "2024" [sampleColumn] [] []).isPublic
      = true := rfl

/-- C8 (amended): sessions built by the main App.tsx ingestion and by the
part_002 ingestion default to `isPublic = false` and stay outside the
non-privileged `publicList` after commit, while the part_011/part_012
variants create their sessions with `isPublic = true`. -/
theorem C8_default_private (idStr title descr src time created : String)
    (cols : List SurveyColumn) (resps : List RawResponse)
    (descs : List (String × String)) (rc : Nat) (anas : List QuestionAnalysis)
    (store : List Session) :
    (mkSessionV1 idStr title descr src time cols resps descs).isPublic = false ∧
    (mkSessionP002 idStr title descr created rc anas).isPublic = false ∧
    publicList (commitStore store (mkSessionV1 idStr title descr src time cols resps descs)) =
      publicList store ∧
    (mkSessionNodeV idStr title descr src time cols resps descs).isPublic = true := by
  refine ⟨rfl, rfl, ?_, rfl⟩
  simp [publicList, commitStore, mkSessionV1]

/-- C7: with id-unique seed and cached collections, the synced merge has
unique ids, resolves every id clash in favour of the seed entry, and
re-merging its own output changes nothing. -/
theorem C7_merge_dedup (seed cached : List Session)
    (hs : (seed.map Session.id).Nodup) (hc : (cached.map Session.id).Nodup) :
    ((syncMerge seed cached).map Session.id).Nodup ∧
    (∀ s ∈ seed, findById (syncMerge seed cached) s.id = some s) ∧
    syncMerge seed (syncMerge seed cached) = syncMerge seed cached := by
  have hnodup : ((syncMerge seed cached).map Session.id).Nodup := by
    rw [syncMerge, List.map_append, List.nodup_append]
    refine ⟨hs, ?_, ?_⟩
    · exact hc.sublist ((List.filter_sublist cached).map Session.id)
    · intro x hx hy
      obtain ⟨s, hsmem, rfl⟩ := List.mem_map.mp hy
      have := (List.mem_filter.mp hsmem).2
      simp only [decide_eq_true_eq] at this
      exact this hx
  refine ⟨hnodup, fun s hsm => ?_, ?_⟩
  · exact find_by_id_of_mem _ s hnodup (by rw [syncMerge]; exact List.mem_append_left _ hsm)
  · simp only [syncMerge, List.filter_append]
    have h1 : seed.filter (fun s => decide (s.id ∉ seed.map Session.id)) = [] := by
      rw [List.filter_eq_nil_iff]
      intro a ha
      simp [List.mem_map_of_mem Session.id ha]
    have h2 : (cached.filter (fun s => decide (s.id ∉ seed.map Session.id))).filter
        (fun s => decide (s.id ∉ seed.map Session.id)) =
        cached.filter (fun s => decide (s.id ∉ seed.map Session.id)) := by
      rw [List.filter_eq_self]
      intro a ha
      exact (List.mem_filter.mp ha).2
    rw [h1, h2, List.nil_append]

/-- Witness for C7: a seed entry and a stale cached entry share id "sav-1";
the merge keeps unique ids, returns the seed version, and is idempotent. -/
theorem C7_merge_dedup_w :
    ((syncMerge [sampleSession] [sampleSession2, sampleConflict]).map Session.id).Nodup ∧
    findById (syncMerge [sampleSession] [sampleSession2, sampleConflict])
      sampleSession.id = some sampleSession ∧
    syncMerge [sampleSession] (syncMerge [sampleSession] [sampleSession2, sampleConflict]) =
      syncMerge [sampleSession] [sampleSession2, sampleConflict] := by
  have h := C7_merge_dedup [sampleSession] [sampleSession2, sampleConflict]
    (by decide) (by decide)
  exact ⟨h.1, h.2.1 sampleSession (by decide), h.2.2⟩

/-- C6 counterexample: the summarization request is one batched call for all
columns, so when it fails, every column (here 2 of 2) falls back to the
placeholder — no column "keeps its real description" as the claim requires
for columns other than the failed one; the session is still committed. -/
theorem C6_cex :
    (failedIngest.1.columns.filter
        (fun c => displayedDescription failedIngest.1 c = fallbackText)).length = 2 ∧
    failedIngest.1 ∈ failedIngest.2 := by decide

/-- C6 (amended): when the batched summarization call fails, the ingested
session is still committed to the registry (the failure never aborts
ingestion), but every column of the session displays the fallback
placeholder; on success the parsed descriptions are stored as-is. -/
theorem C6_degradation (idStr title descr src time : String)
    (cols : List SurveyColumn) (resps : List RawResponse)
    (outcome : Option (List (String × String))) (seed cached : List Session) :
    (ingestV1 idStr title descr src time cols resps outcome seed cached).1 ∈
      (ingestV1 idStr title descr src time cols resps outcome seed cached).2 ∧
    (outcome = none → ∀ c ∈ cols,
      displayedDescription (ingestV1 idStr title descr src time cols resps outcome seed cached).1 c
        = fallbackText) ∧
    (∀ d, outcome = some d →
      (ingestV1 idStr title descr src time cols resps outcome seed cached).1.columnDescriptions
        = d) := by
  refine ⟨List.mem_cons_self _ _, fun h c _ => ?_, fun d hd => ?_⟩
  · subst h
    rfl
  · subst hd
    rfl

/-- Witness for C6 at the concrete failed ingestion. -/
theorem C6_degradation_w :
    displayedDescription failedIngest.1 sampleColumn = fallbackText := by
  have h := C6_degradation "sav-7" "Cohort" "Desc" "f.csv" "2024-01-01"
    [sampleColumn, sampleColumn2] [[("q0", "CS"), ("q1", "3.5")]] none [] []
  exact h.2.1 rfl sampleColumn (by decide)

/-- C3 counterexample: on a header-only input both parsers succeed with an
empty result instead of failing — `parseCSV` returns
`{ columns: [], responses: [] }` and `parseCSVData` returns
`{ responseCount: 0, analyses: [] }`; no `ParseError` exists in the code. -/
theorem C3_cex :
    parseCSV_v1 "Name,Age" = ([], []) ∧
    parseCSVData (fun _ _ => "summary") "Name,Age" = (0, []) := by decide

/-- C3 (amended): for every input with fewer than two content lines (header
only, or an empty file) parsing returns successfully with the empty result;
it does not raise any error. -/
theorem C3_empty_result :
    (∀ csv : String,
       ((splitLines csv.data).filter (fun l => trimChars l ≠ [])).length < 2 →
       parseCSV_v1 csv = ([], [])) ∧
    (∀ (oracle : String → List DistEntry → String) (csv : String),
       (splitChar '\n' (trimChars csv.data)).length < 2 →
       parseCSVData oracle csv = (0, [])) := by
  constructor
  · intro csv h
    rw [parseCSV_v1, if_pos h]
  · intro oracle csv h
    rw [parseCSVData, if_pos (by simpa using h)]

/-- Witness for C3 at a header-only file and an empty file. -/
theorem C3_empty_result_w :
    parseCSV_v1 "OnlyHeader" = ([], []) ∧
    parseCSVData (fun _ _ => "s") "" = (0, []) :=
  ⟨C3_empty_result.1 "OnlyHeader" (by decide),
   C3_empty_result.2 (fun _ _ => "s") "" (by decide)⟩

theorem bump_snd_sum (inner : List (String × Nat)) (b : String) :
    ((bump inner b).map Prod.snd).sum = (inner.map Prod.snd).sum + 1 := by
  induction inner with
  | nil => simp [bump]
  | cons p rest ih =>
    obtain ⟨k, n⟩ := p
    by_cases h : k = b
    · simp only [bump, if_pos h, List.map_cons, List.sum_cons]
      omega
    · simp only [bump, if_neg h, List.map_cons, List.sum_cons, ih]
      omega

theorem bump2_sum (m : List (String × List (String × Nat))) (a b : String) :
    sumCounts2 (bump2 m a b) = sumCounts2 m + 1 := by
  induction m with
  | nil => simp [bump2, sumCounts2, bump]
  | cons p rest ih =>
    obtain ⟨k, inner⟩ := p
    by_cases h : k = a
    · simp only [bump2, if_pos h, sumCounts2, List.map_cons, List.sum_cons, bump_snd_sum]
      omega
    · simp only [bump2, if_neg h, sumCounts2, List.map_cons, List.sum_cons] at ih ⊢
      omega

theorem pairCounts_sum (responses : List RawResponse) (aId bId : String) :
    sumCounts2 (pairCounts responses aId bId) = responses.length := by
  suffices h : ∀ (rs : List RawResponse) (m : List (String × List (String × Nat))),
      sumCounts2 (rs.foldl (fun m r => bump2 m (orUnknown r aId) (orUnknown r bId)) m) =
        sumCounts2 m + rs.length by
    simpa [pairCounts, sumCounts2] using h responses []
  intro rs
  induction rs with
  | nil => simp
  | cons r rest ih =>
    intro m
    rw [List.foldl_cons, ih, bump2_sum, List.length_cons]
    omega

theorem assocSet_of_not_mem {β : Type} (m : List (String × β)) (k : String) (v : β)
    (h : k ∉ m.map Prod.fst) : assocSet m k v = m ++ [(k, v)] := by
  induction m with
  | nil => rfl
  | cons p rest ih =>
    obtain ⟨k', v'⟩ := p
    simp only [List.map_cons, List.mem_cons, not_or] at h
    have hne : ¬ (k' = k) := fun hh => h.1 hh.symm
    simp only [assocSet, if_neg hne, List.cons_append, ih h.2]

theorem foldl_assocSet_eq_append {α β : Type} (f : α → String) (g : α → β) :
    ∀ (ps : List α) (m : List (String × β)),
      (ps.map f).Nodup → (∀ a ∈ ps, f a ∉ m.map Prod.fst) →
      ps.foldl (fun acc a => assocSet acc (f a) (g a)) m =
        m ++ ps.map (fun a => (f a, g a)) := by
  intro ps
  induction ps with
  | nil => simp
  | cons x rest ih =>
    intro m hnd hmem
    simp only [List.map_cons, List.nodup_cons] at hnd
    rw [List.foldl_cons, assocSet_of_not_mem _ _ _ (hmem x (List.mem_cons_self _ _)),
      ih _ hnd.2]
    · simp
    · intro a ha
      simp only [List.map_append, List.map_cons, List.map_nil, List.mem_append,
        List.mem_singleton, not_or]
      refine ⟨hmem a (List.mem_cons_of_mem _ ha), fun hfa => ?_⟩
      exact hnd.1 (hfa ▸ List.mem_map_of_mem f ha)

theorem alookup_map_of_mem {α β : Type} (f : α → String) (g : α → β) :
    ∀ (ps : List α), (ps.map f).Nodup → ∀ a ∈ ps,
      alookup (f a) (ps.map (fun a => (f a, g a))) = some (g a) := by
  intro ps
  induction ps with
  | nil => intro _ a ha; cases ha
  | cons x rest ih =>
    intro hnd a ha
    simp only [List.map_cons, List.nodup_cons] at hnd
    by_cases h : f x = f a
    · have hax : a = x := by
        rcases List.mem_cons.mp ha with h' | h'
        · exact h'
        · exact absurd (h ▸ List.mem_map_of_mem f h') hnd.1
      subst hax
      simp [alookup, h]
    · have ha' : a ∈ rest := by
        rcases List.mem_cons.mp ha with h' | h'
        · exact absurd (h' ▸ rfl) h
        · exact h'
      simp only [List.map_cons, alookup, if_neg h]
      exact ih hnd.2 a ha'

theorem allPairs_get_mem {α : Type} :
    ∀ (l : List α) (i j : Nat) (hi : i < l.length) (hj : j < l.length), i < j →
      (l.get ⟨i, hi⟩, l.get ⟨j, hj⟩) ∈ allPairs l := by
  intro l
  induction l with
  | nil => intro i j hi; simp at hi
  | cons x xs ih =>
    intro i j hi hj hij
    match i, j with
    | 0, 0 => omega
    | 0, j' + 1 =>
      apply List.mem_append_left
      exact List.mem_map_of_mem _ (xs.get_mem _ _)
    | i' + 1, 0 => omega
    | i' + 1, j' + 1 =>
      apply List.mem_append_right
      exact ih i' j' (by simpa using hi) (by simpa using hj) (by omega)

/-- C5: over the first 8 visualizable columns, the correlation map holds
exactly the keys `label_i x label_j` for `i < j` (in loop order); under each
such key sits the two-level count map of that pair; and because missing or
empty values are coerced to the "Unknown" bucket, the counts of every pair
map sum to the total number of responses.  The key-uniqueness hypothesis
rules out label collisions, without which a later pair overwrites an earlier
one under the same key. -/
theorem C5_correlation (responses : List RawResponse) (columns : List SurveyColumn)
    (hk : ((allPairs ((columns.filter (fun c => c.isVisualizable)).take 8)).map
        (fun p => pairKey p.1 p.2)).Nodup) :
    (calculateCorrelationMap responses columns).map Prod.fst =
      (allPairs ((columns.filter (fun c => c.isVisualizable)).take 8)).map
        (fun p => pairKey p.1 p.2) ∧
    (∀ (i j : Nat) (hi : i < ((columns.filter (fun c => c.isVisualizable)).take 8).length)
       (hj : j < ((columns.filter (fun c => c.isVisualizable)).take 8).length), i < j →
       alookup
         (pairKey (((columns.filter (fun c => c.isVisualizable)).take 8).get ⟨i, hi⟩)
           (((columns.filter (fun c => c.isVisualizable)).take 8).get ⟨j, hj⟩))
         (calculateCorrelationMap responses columns) =
         some (pairCounts responses
           (((columns.filter (fun c => c.isVisualizable)).take 8).get ⟨i, hi⟩).id
           (((columns.filter (fun c => c.isVisualizable)).take 8).get ⟨j, hj⟩).id)) ∧
    (∀ aId bId : String,
      sumCounts2 (pairCounts responses aId bId) = responses.length) := by
  have hmap : calculateCorrelationMap responses columns =
      (allPairs ((columns.filter (fun c => c.isVisualizable)).take 8)).map
        (fun p => (pairKey p.1 p.2, pairCounts responses p.1.id p.2.id)) := by
    rw [calculateCorrelationMap]
    simpa using foldl_assocSet_eq_append (fun p => pairKey p.1 p.2)
      (fun p => pairCounts responses p.1.id p.2.id)
      (allPairs ((columns.filter (fun c => c.isVisualizable)).take 8)) [] hk (by simp)
  refine ⟨?_, ?_, fun aId bId => pairCounts_sum responses aId bId⟩
  · rw [hmap, List.map_map]
    rfl
  · intro i j hi hj hij
    rw [hmap]
    exact alookup_map_of_mem (fun p => pairKey p.1 p.2)
      (fun p => pairCounts responses p.1.id p.2.id) _ hk _
      (allPairs_get_mem _ i j hi hj hij)

/-- Witness for C5 at two columns and two responses, the second of which is
missing a value for the second column (counted as "Unknown"). -/
theorem C5_correlation_w :
    (calculateCorrelationMap [[("q0", "CS"), ("q1", "3.5")], [("q0", "Math")]]
        [sampleColumn, sampleColumn2]).map Prod.fst = ["Major x GPA"] ∧
    sumCounts2 (pairCounts [[("q0", "CS"), ("q1", "3.5")], [("q0", "Math")]] "q0" "q1")
      = 2 := by
  have h := C5_correlation [[("q0", "CS"), ("q1", "3.5")], [("q0", "Math")]]
    [sampleColumn, sampleColumn2] (by decide)
  exact ⟨h.1.trans (by decide), (h.2.2 "q0" "q1").trans (by decide)⟩

theorem length_dropWhile_le' (p : Char → Bool) (l : List Char) :
    (l.dropWhile p).length ≤ l.length :=
  (List.dropWhile_sublist _).length_le

theorem dropWhile_of_trimFixed {l : List Char} (h : trimChars l = l) :
    l.dropWhile isWsChar = l := by
  have hsub : (l.dropWhile isWsChar).Sublist l := List.dropWhile_sublist _
  apply hsub.eq_of_length
  have h1 : (trimChars l).length ≤ (l.dropWhile isWsChar).length := by
    unfold trimChars
    simp only [List.length_reverse]
    simpa using length_dropWhile_le' isWsChar (l.dropWhile isWsChar).reverse
  have h2 := length_dropWhile_le' isWsChar l
  rw [h] at h1
  omega

theorem dropWhile_reverse_of_trimFixed {l : List Char} (h : trimChars l = l) :
    l.reverse.dropWhile isWsChar = l.reverse := by
  have hd := dropWhile_of_trimFixed h
  have h' : (l.reverse.dropWhile isWsChar).reverse = l := by
    calc (l.reverse.dropWhile isWsChar).reverse
        = trimChars l := by rw [trimChars, hd]
      _ = l := h
  have := congrArg List.reverse h'
  simpa using this

theorem not_ws_of_dropWhile_cons {c : Char} {cs : List Char}
    (h : (c :: cs).dropWhile isWsChar = c :: cs) : isWsChar c = false := by
  cases hw : isWsChar c
  · rfl
  · rw [List.dropWhile_cons_of_pos hw] at h
    have h1 := length_dropWhile_le' isWsChar cs
    have hlen := congrArg List.length h
    simp only [List.length_cons] at hlen
    omega

theorem trimFixed_append_mid {a b : List Char} {c : Char}
    (ha : trimChars a = a) (hb : trimChars b = b) (hc : isWsChar c = false) :
    trimChars (a ++ c :: b) = a ++ c :: b := by
  have h1 : (a ++ c :: b).dropWhile isWsChar = a ++ c :: b := by
    cases a with
    | nil =>
      show (c :: b).dropWhile isWsChar = c :: b
      exact List.dropWhile_cons_of_neg (by simp [hc])
    | cons x xs =>
      have hx : isWsChar x = false := not_ws_of_dropWhile_cons (dropWhile_of_trimFixed ha)
      show (x :: (xs ++ c :: b)).dropWhile isWsChar = x :: (xs ++ c :: b)
      exact List.dropWhile_cons_of_neg (by simp [hx])
  rw [trimChars, h1]
  have h2 : (a ++ c :: b).reverse.dropWhile isWsChar = (a ++ c :: b).reverse := by
    rw [List.reverse_append, List.reverse_cons]
    cases hbrev : b.reverse with
    | nil =>
      show (c :: a.reverse).dropWhile isWsChar = c :: a.reverse
      exact List.dropWhile_cons_of_neg (by simp [hc])
    | cons y ys =>
      have hy : isWsChar y = false := by
        have hrb := dropWhile_reverse_of_trimFixed hb
        rw [hbrev] at hrb
        exact not_ws_of_dropWhile_cons hrb
      show (y :: (ys ++ [c] ++ a.reverse)).dropWhile isWsChar = y :: (ys ++ [c] ++ a.reverse)
      exact List.dropWhile_cons_of_neg (by simp [hy])
  rw [h2, List.reverse_reverse]

theorem tok_other {c : Char} {rest : List Char} {inQ : Bool} {cur : List Char}
    {acc : List String} (hq : ¬ c = '"') (hc : ¬ c = ',') :
    tokenizeAux (c :: rest) inQ cur acc = tokenizeAux rest inQ (cur ++ [c]) acc :=
  tokenizeAux.eq_6 inQ cur acc c rest (fun h _ => absurd h hq)
    (fun _ h _ => absurd h hq) (fun _ _ h _ => absurd h hq) (fun h => absurd h hc)

theorem tok_comma_in {rest : List Char} {cur : List Char} {acc : List String} :
    tokenizeAux (',' :: rest) true cur acc = tokenizeAux rest true (cur ++ [',']) acc := by
  rw [tokenizeAux.eq_5]
  rfl

theorem tok_comma_out {rest : List Char} {cur : List Char} {acc : List String} :
    tokenizeAux (',' :: rest) false cur acc =
      tokenizeAux rest false [] (acc ++ [⟨trimChars cur⟩]) := by
  rw [tokenizeAux.eq_5]
  rfl

theorem tok_quote_pair {rest : List Char} {inQ : Bool} {cur : List Char}
    {acc : List String} :
    tokenizeAux ('"' :: '"' :: rest) inQ cur acc =
      tokenizeAux rest inQ (cur ++ ['"']) acc :=
  tokenizeAux.eq_3 inQ cur acc rest

theorem tok_quote_single {d : Char} {rs : List Char} {inQ : Bool} {cur : List Char}
    {acc : List String} (hd : ¬ d = '"') :
    tokenizeAux ('"' :: d :: rs) inQ cur acc = tokenizeAux (d :: rs) (!inQ) cur acc :=
  tokenizeAux.eq_4 inQ cur acc d rs (fun h => absurd h hd)

theorem tok_quote_end {cur : List Char} {acc : List String} {inQ : Bool} :
    tokenizeAux ['"'] inQ cur acc = acc ++ [⟨trimChars cur⟩] :=
  tokenizeAux.eq_2 inQ cur acc

theorem tok_run_inQ :
    ∀ (cs : List Char), '"' ∉ cs →
      ∀ (rest cur : List Char) (acc : List String),
        tokenizeAux (cs ++ rest) true cur acc = tokenizeAux rest true (cur ++ cs) acc := by
  intro cs
  induction cs with
  | nil => intro _ rest cur acc; simp
  | cons x xs ih =>
    intro h rest cur acc
    simp only [List.mem_cons, not_or] at h
    have hx : ¬ x = '"' := fun hh => h.1 hh.symm
    rw [List.cons_append]
    by_cases hc : x = ','
    · subst hc
      rw [tok_comma_in, ih h.2]
      simp
    · rw [tok_other hx hc, ih h.2]
      simp

theorem tok_run_out :
    ∀ (cs : List Char), '"' ∉ cs → ',' ∉ cs →
      ∀ (rest cur : List Char) (acc : List String),
        tokenizeAux (cs ++ rest) false cur acc = tokenizeAux rest false (cur ++ cs) acc := by
  intro cs
  induction cs with
  | nil => intro _ _ rest cur acc; simp
  | cons x xs ih =>
    intro hq hcm rest cur acc
    simp only [List.mem_cons, not_or] at hq hcm
    have hx : ¬ x = '"' := fun hh => hq.1 hh.symm
    have hc : ¬ x = ',' := fun hh => hcm.1 hh.symm
    rw [List.cons_append, tok_other hx hc, ih hq.2 hcm.2]
    simp

theorem tok_run_out_nil (cs : List Char) (hq : '"' ∉ cs) (hc : ',' ∉ cs)
    (cur : List Char) (acc : List String) :
    tokenizeAux cs false cur acc = acc ++ [⟨trimChars (cur ++ cs)⟩] := by
  have h := tok_run_out cs hq hc [] cur acc
  rw [List.append_nil] at h
  rw [h, tokenizeAux.eq_1]

/-- C4: RFC-4180-style tokenization of a data line.  (i) a comma inside a
quoted field is kept as part of the field value; (ii) an unquoted comma
separates fields; (iii) a doubled quote inside a quoted field produces a
single literal quote in the field value.  The content hypotheses say the
fields carry no further quote characters and (where the tokenizer trims) no
surrounding whitespace. -/
theorem C4_rfc_tokenization :
    (∀ a b : List Char, '"' ∉ a → '"' ∉ b →
      trimChars (a ++ ',' :: b) = a ++ ',' :: b →
      tokenizeJS ('"' :: (a ++ ',' :: b) ++ ['"']) = [⟨a ++ ',' :: b⟩]) ∧
    (∀ a b : List Char, '"' ∉ a → ',' ∉ a → '"' ∉ b → ',' ∉ b →
      trimChars a = a → trimChars b = b →
      tokenizeJS (a ++ ',' :: b) = [⟨a⟩, ⟨b⟩]) ∧
    (∀ a b : List Char, a ≠ [] → '"' ∉ a → '"' ∉ b →
      trimChars (a ++ '"' :: b) = a ++ '"' :: b →
      tokenizeJS ('"' :: a ++ '"' :: '"' :: b ++ ['"']) = [⟨a ++ '"' :: b⟩]) := by
  have hmem : ∀ (a b : List Char) (c : Char), '"' ∉ a → '"' ∉ b → c ≠ '"' →
      '"' ∉ a ++ c :: b := by
    intro a b c ha hb hc
    simp only [List.mem_append, List.mem_cons, not_or]
    exact ⟨ha, fun hh => hc hh.symm, hb⟩
  refine ⟨?_, ?_, ?_⟩
  · intro a b ha hb htrim
    have hall : '"' ∉ a ++ ',' :: b := hmem a b ',' ha hb (by decide)
    cases a with
    | nil =>
      simp only [List.nil_append] at htrim ⊢
      rw [tokenizeJS]
      show tokenizeAux ('"' :: ',' :: (b ++ ['"'])) false [] [] = [String.mk (',' :: b)]
      rw [tok_quote_single (by decide)]
      show tokenizeAux (',' :: (b ++ ['"'])) true [] [] = [String.mk (',' :: b)]
      rw [tok_comma_in]
      show tokenizeAux (b ++ ['"']) true [','] [] = [String.mk (',' :: b)]
      rw [tok_run_inQ b hb ['"'] [','] [], tok_quote_end]
      show [String.mk (trimChars (',' :: b))] = [String.mk (',' :: b)]
      rw [htrim]
    | cons x xs =>
      have hx : ¬ x = '"' := by
        simp only [List.mem_cons, not_or] at ha
        exact fun hh => ha.1 hh.symm
      rw [tokenizeJS]
      show tokenizeAux ('"' :: x :: ((xs ++ ',' :: b) ++ ['"'])) false [] []
        = [String.mk ((x :: xs) ++ ',' :: b)]
      rw [tok_quote_single hx]
      show tokenizeAux (((x :: xs) ++ ',' :: b) ++ ['"']) true [] []
        = [String.mk ((x :: xs) ++ ',' :: b)]
      rw [tok_run_inQ _ hall ['"'] [] [], tok_quote_end]
      show [String.mk (trimChars ((x :: xs) ++ ',' :: b))] = [String.mk ((x :: xs) ++ ',' :: b)]
      rw [htrim]
  · intro a b haq hac hbq hbc hta htb
    rw [tokenizeJS, tok_run_out a haq hac (',' :: b) [] []]
    show tokenizeAux (',' :: b) false a [] = [String.mk a, String.mk b]
    rw [tok_comma_out, tok_run_out_nil b hbq hbc [] _]
    show [String.mk (trimChars a), String.mk (trimChars b)] = [String.mk a, String.mk b]
    rw [hta, htb]
  · intro a b hne ha hb htrim
    cases a with
    | nil => exact absurd rfl hne
    | cons x xs =>
      have hx : ¬ x = '"' := by
        simp only [List.mem_cons, not_or] at ha
        exact fun hh => ha.1 hh.symm
      rw [tokenizeJS]
      simp only [List.cons_append, List.append_assoc]
      show tokenizeAux ('"' :: x :: (xs ++ '"' :: '"' :: (b ++ ['"']))) false [] []
        = [String.mk ((x :: xs) ++ '"' :: b)]
      rw [tok_quote_single hx]
      show tokenizeAux ((x :: xs) ++ '"' :: '"' :: (b ++ ['"'])) true [] []
        = [String.mk ((x :: xs) ++ '"' :: b)]
      rw [tok_run_inQ _ ha _ [] [], tok_quote_pair]
      show tokenizeAux (b ++ ['"']) true ((x :: xs) ++ ['"']) [] = [String.mk ((x :: xs) ++ '"' :: b)]
      rw [tok_run_inQ b hb ['"'] _ [], tok_quote_end]
      show [String.mk (trimChars (((x :: xs) ++ ['"']) ++ b))] = [String.mk ((x :: xs) ++ '"' :: b)]
      rw [show (((x :: xs) ++ ['"']) ++ b : List Char) = (x :: xs) ++ '"' :: b by simp, htrim]

/-- Witness for C4 on concrete fields: a quoted field containing a comma, two
plain fields, and a quoted field containing an escaped quote. -/
theorem C4_rfc_tokenization_w :
    tokenizeJS ('"' :: (['a'] ++ ',' :: ['b']) ++ ['"']) = [⟨['a'] ++ ',' :: ['b']⟩] ∧
    tokenizeJS (['x'] ++ ',' :: ['y']) = [⟨['x']⟩, ⟨['y']⟩] ∧
    tokenizeJS ('"' :: ['h', 'i'] ++ '"' :: '"' :: ['o'] ++ ['"']) =
      [⟨['h', 'i'] ++ '"' :: ['o']⟩] :=
  ⟨C4_rfc_tokenization.1 ['a'] ['b'] (by decide) (by decide) (by decide),
   C4_rfc_tokenization.2.1 ['x'] ['y'] (by decide) (by decide) (by decide) (by decide)
     (by decide) (by decide),
   C4_rfc_tokenization.2.2 ['h', 'i'] ['o'] (by decide) (by decide) (by decide) (by decide)⟩

theorem bump_keys (d : List (String × Nat)) (k : String) :
    (bump d k).map Prod.fst =
      if k ∈ d.map Prod.fst then d.map Prod.fst else d.map Prod.fst ++ [k] := by
  induction d with
  | nil => simp [bump]
  | cons p rest ih =>
    obtain ⟨k', n⟩ := p
    by_cases h : k' = k
    · subst h
      simp [bump]
    · have hne : ¬ k = k' := fun hh => h hh.symm
      simp only [bump, if_neg h, List.map_cons, ih]
      by_cases hm : k ∈ rest.map Prod.fst
      · rw [if_pos hm, if_pos (by simp [List.mem_cons, hm])]
      · rw [if_neg hm, if_neg (by simp [List.mem_cons, hne, hm])]
        simp

theorem bump_lcount (d : List (String × Nat)) (k s : String) :
    lcount (bump d k) s = lcount d s + (if s = k then 1 else 0) := by
  induction d with
  | nil =>
    by_cases h : s = k
    · subst h
      simp [bump, lcount, alookup]
    · have h' : ¬ k = s := fun hh => h hh.symm
      simp [bump, lcount, alookup, h, h']
  | cons p rest ih =>
    obtain ⟨k', n⟩ := p
    by_cases h : k' = k
    · subst h
      by_cases hs : k' = s
      · subst hs
        simp [bump, lcount, alookup]
      · have hs' : ¬ s = k' := fun hh => hs hh.symm
        simp [bump, lcount, alookup, hs, hs']
    · by_cases hs : k' = s
      · subst hs
        simp [bump, lcount, alookup, h]
      · simp only [bump, if_neg h, lcount, alookup, if_neg hs]
        exact ih

theorem foldl_bump_lcount :
    ∀ (vals : List String) (d : List (String × Nat)) (s : String),
      lcount (vals.foldl bump d) s = lcount d s + vals.count s := by
  intro vals
  induction vals with
  | nil => simp
  | cons x xs ih =>
    intro d s
    rw [List.foldl_cons, ih, bump_lcount, List.count_cons]
    by_cases h : s = x
    · subst h
      simp
      omega
    · have h' : ¬ x = s := fun hh => h hh.symm
      simp [h, h']

theorem foldl_bump_keys :
    ∀ (vals : List String) (d : List (String × Nat)),
      (vals.foldl bump d).map Prod.fst =
        vals.foldl (fun acc x => if x ∈ acc then acc else acc ++ [x]) (d.map Prod.fst) := by
  intro vals
  induction vals with
  | nil => intro d; rfl
  | cons x xs ih =>
    intro d
    rw [List.foldl_cons, ih, bump_keys, List.foldl_cons]

theorem foldl_insert_dedup :
    ∀ (vals ks : List String),
      vals.foldl (fun acc x => if x ∈ acc then acc else acc ++ [x]) ks =
        ks ++ (dedupFirst vals).filter (fun y => y ∉ ks) := by
  intro vals
  induction vals with
  | nil => simp [dedupFirst]
  | cons x xs ih =>
    intro ks
    rw [List.foldl_cons]
    by_cases hx : x ∈ ks
    · rw [if_pos hx, ih, dedupFirst, List.filter_cons]
      rw [if_neg (by simp [hx]), List.filter_filter]
      congr 1
      apply List.filter_congr
      intro y _
      by_cases hy : y ∈ ks
      · simp [hy]
      · have hyx : ¬ y = x := fun hh => hy (hh ▸ hx)
        simp [hy, hyx]
    · rw [if_neg hx, ih, dedupFirst, List.filter_cons, if_pos (by simp [hx]),
        List.filter_filter, List.append_assoc]
      congr 1
      rw [List.singleton_append]
      congr 1
      apply List.filter_congr
      intro y _
      by_cases hy : y ∈ ks
      · simp [hy, List.mem_append]
      · by_cases hyx : y = x
        · simp [hyx, List.mem_append, hx]
        · simp [hy, hyx, List.mem_append]

theorem mem_dedupFirst : ∀ (l : List String) (a : String), a ∈ dedupFirst l ↔ a ∈ l := by
  intro l
  induction l with
  | nil => simp [dedupFirst]
  | cons x xs ih =>
    intro a
    by_cases h : a = x
    · simp [dedupFirst, h]
    · simp [dedupFirst, h, List.mem_filter, ih]

theorem dedupFirst_nodup : ∀ (l : List String), (dedupFirst l).Nodup := by
  intro l
  induction l with
  | nil => exact List.nodup_nil
  | cons x xs ih =>
    rw [dedupFirst]
    refine List.nodup_cons.mpr ⟨?_, ih.filter _⟩
    intro hx
    have := (List.mem_filter.mp hx).2
    simp at this

theorem dedupFirst_indexOf_pairwise :
    ∀ (l : List String), (dedupFirst l).Pairwise (fun a b => l.indexOf a < l.indexOf b) := by
  intro l
  induction l with
  | nil => exact List.Pairwise.nil
  | cons x xs ih =>
    rw [dedupFirst]
    refine List.pairwise_cons.mpr ⟨?_, ?_⟩
    · intro b hb
      have hbx : b ≠ x := by
        have := (List.mem_filter.mp hb).2
        simpa using this
      rw [List.indexOf_cons_self, List.indexOf_cons_ne _ hbx.symm]
      exact Nat.succ_pos _
    · have hpw : ((dedupFirst xs).filter (fun y => y ≠ x)).Pairwise
          (fun a b => xs.indexOf a < xs.indexOf b) :=
        ih.sublist (List.filter_sublist _)
      refine hpw.imp_of_mem ?_
      intro a b ha hb hab
      have hax : a ≠ x := by simpa using (List.mem_filter.mp ha).2
      have hbx : b ≠ x := by simpa using (List.mem_filter.mp hb).2
      rw [List.indexOf_cons_ne _ hax.symm, List.indexOf_cons_ne _ hbx.symm]
      omega

theorem alookup_map_self {β : Type} (f : String → β) :
    ∀ (l : List String) (s : String),
      alookup s (l.map fun x => (x, f x)) = if s ∈ l then some (f s) else none := by
  intro l
  induction l with
  | nil => intro s; simp [alookup]
  | cons x xs ih =>
    intro s
    by_cases h : x = s
    · subst h
      simp [alookup]
    · rw [List.map_cons, alookup, if_neg h, ih]
      by_cases hm : s ∈ xs
      · rw [if_pos hm, if_pos (List.mem_cons_of_mem _ hm)]
      · have h' : ¬ s = x := fun hh => h hh.symm
        rw [if_neg hm, if_neg (by simp [hm, h'])]

theorem assoc_ext :
    ∀ (l₁ l₂ : List (String × Nat)),
      l₁.map Prod.fst = l₂.map Prod.fst → (l₁.map Prod.fst).Nodup →
      (∀ s, lcount l₁ s = lcount l₂ s) → l₁ = l₂ := by
  intro l₁
  induction l₁ with
  | nil =>
    intro l₂ hk _ _
    cases l₂ with
    | nil => rfl
    | cons q m => simp at hk
  | cons p l ih =>
    intro l₂ hk hnd hl
    obtain ⟨k, n⟩ := p
    cases l₂ with
    | nil => simp at hk
    | cons q m =>
      obtain ⟨k', n'⟩ := q
      simp only [List.map_cons, List.cons.injEq] at hk
      obtain ⟨hk1, hk2⟩ := hk
      subst hk1
      simp only [List.map_cons, List.nodup_cons] at hnd
      have hn : n = n' := by
        have := hl k
        simpa [lcount, alookup] using this
      subst hn
      have htail : l = m := by
        apply ih m hk2 hnd.2
        intro s
        by_cases hs : s = k
        · subst hs
          have h1 : alookup s l = none :=
            alookup_eq_none l s hnd.1
          have h2 : alookup s m = none :=
            alookup_eq_none m s (hk2 ▸ hnd.1)
          simp [lcount, h1, h2]
        · have hs' : ¬ k = s := fun hh => hs hh.symm
          have := hl s
          simpa [lcount, alookup, hs'] using this
      rw [htail]

theorem dist_eq_spec (vals : List String) :
    vals.foldl bump [] = (dedupFirst vals).map (fun s => (s, vals.count s)) := by
  apply assoc_ext
  · rw [foldl_bump_keys, foldl_insert_dedup]
    simp only [List.map_nil, List.nil_append, List.map_map]
    rw [List.filter_congr (q := fun _ => true) (by simp), List.filter_true]
    exact (List.map_id (dedupFirst vals)).symm
  · rw [foldl_bump_keys, foldl_insert_dedup]
    simp only [List.map_nil, List.nil_append]
    rw [List.filter_congr (q := fun _ => true) (by simp), List.filter_true]
    exact dedupFirst_nodup vals
  · intro s
    rw [foldl_bump_lcount]
    simp only [lcount]
    rw [alookup_map_self (fun t => vals.count t) (dedupFirst vals) s]
    by_cases hm : s ∈ vals
    · rw [if_pos ((mem_dedupFirst vals s).mpr hm)]
      simp [alookup]
    · rw [if_neg (fun hh => hm ((mem_dedupFirst vals s).mp hh))]
      simp [alookup, List.count_eq_zero.mpr hm]

theorem entryBefore_trans {x y z : Nat × DistEntry}
    (h1 : entryBefore x y = true) (h2 : entryBefore y z = true) :
    entryBefore x z = true := by
  simp only [entryBefore, Bool.or_eq_true, Bool.and_eq_true, decide_eq_true_eq] at h1 h2 ⊢
  rcases h1 with h1 | ⟨h1a, h1b⟩ <;> rcases h2 with h2 | ⟨h2a, h2b⟩
  · left; omega
  · left; omega
  · left; omega
  · right; exact ⟨by omega, by omega⟩

theorem entryBefore_total {x y : Nat × DistEntry} (h : x.1 ≠ y.1) :
    entryBefore x y = true ∨ entryBefore y x = true := by
  simp only [entryBefore, Bool.or_eq_true, Bool.and_eq_true, decide_eq_true_eq]
  rcases Nat.lt_trichotomy x.2.value y.2.value with hv | hv | hv
  · right
    left
    exact hv
  · rcases Nat.lt_or_ge x.1 y.1 with hi | hi
    · left
      right
      exact ⟨hv, hi⟩
    · right
      right
      exact ⟨hv.symm, by omega⟩
  · left
    left
    exact hv

theorem insertEntry_perm (x : Nat × DistEntry) :
    ∀ (l : List (Nat × DistEntry)), (insertEntry x l).Perm (x :: l) := by
  intro l
  induction l with
  | nil => exact List.Perm.refl _
  | cons y ys ih =>
    by_cases h : entryBefore x y = true
    · rw [insertEntry, if_pos h]
    · rw [insertEntry, if_neg h]
      exact (ih.cons y).trans (List.Perm.swap x y ys)

theorem sortTagged_perm : ∀ (l : List (Nat × DistEntry)), (sortTagged l).Perm l := by
  intro l
  induction l with
  | nil => exact List.Perm.refl _
  | cons x xs ih =>
    exact (insertEntry_perm x (sortTagged xs)).trans (ih.cons x)

theorem insertEntry_pairwise {x : Nat × DistEntry} :
    ∀ {l : List (Nat × DistEntry)},
      l.Pairwise (fun a b => entryBefore a b = true) →
      (∀ y ∈ l, x.1 ≠ y.1) →
      (insertEntry x l).Pairwise (fun a b => entryBefore a b = true) := by
  intro l
  induction l with
  | nil => intro _ _; simp [insertEntry]
  | cons y ys ih =>
    intro hl hidx
    rcases List.pairwise_cons.mp hl with ⟨hy, hys⟩
    by_cases h : entryBefore x y = true
    · rw [insertEntry, if_pos h]
      refine List.pairwise_cons.mpr ⟨?_, hl⟩
      intro z hz
      rcases List.mem_cons.mp hz with rfl | hz'
      · exact h
      · exact entryBefore_trans h (hy z hz')
    · rw [insertEntry, if_neg h]
      have hyx : entryBefore y x = true := by
        rcases entryBefore_total (hidx y (List.mem_cons_self _ _)) with h' | h'
        · exact absurd h' h
        · exact h'
      refine List.pairwise_cons.mpr
        ⟨?_, ih hys (fun z hz => hidx z (List.mem_cons_of_mem _ hz))⟩
      intro z hz
      have hz' : z ∈ x :: ys := (insertEntry_perm x ys).subset hz
      rcases List.mem_cons.mp hz' with rfl | hz''
      · exact hyx
      · exact hy z hz''

theorem sortTagged_pairwise :
    ∀ (l : List (Nat × DistEntry)), (l.map Prod.fst).Nodup →
      (sortTagged l).Pairwise (fun a b => entryBefore a b = true) := by
  intro l
  induction l with
  | nil => intro _; simp [sortTagged]
  | cons x xs ih =>
    intro hnd
    simp only [List.map_cons, List.nodup_cons] at hnd
    have heq : sortTagged (x :: xs) = insertEntry x (sortTagged xs) := rfl
    rw [heq]
    apply insertEntry_pairwise (ih hnd.2)
    intro y hy
    have hmem : y ∈ xs := (sortTagged_perm xs).subset hy
    exact fun hh => hnd.1 (hh ▸ List.mem_map_of_mem Prod.fst hmem)

theorem stableSortDesc_perm (l : List DistEntry) : (stableSortDesc l).Perm l := by
  rw [stableSortDesc]
  have h1 : ((sortTagged l.enum).map Prod.snd).Perm (l.enum.map Prod.snd) :=
    (sortTagged_perm l.enum).map Prod.snd
  rw [List.enum_map_snd l] at h1
  exact h1

theorem insertKey_perm (s : String) :
    ∀ (l : List String), (insertKey s l).Perm (s :: l) := by
  intro l
  induction l with
  | nil => exact List.Perm.refl _
  | cons t ts ih =>
    by_cases h : keyNum s ≤ keyNum t
    · rw [insertKey, if_pos h]
    · rw [insertKey, if_neg h]
      exact (ih.cons t).trans (List.Perm.swap s t ts)

theorem sortKeys_perm : ∀ (l : List String), (sortKeys l).Perm l := by
  intro l
  induction l with
  | nil => exact List.Perm.refl _
  | cons x xs ih =>
    exact (insertKey_perm x (sortKeys xs)).trans (ih.cons x)

theorem jsKeyOrder_perm (l : List String) : (jsKeyOrder l).Perm l := by
  rw [jsKeyOrder]
  exact ((sortKeys_perm _).append_right _).trans (List.filter_append_perm _ l)

theorem insertKey_le_pairwise {s : String} :
    ∀ {l : List String}, l.Pairwise (fun a b => keyNum a ≤ keyNum b) →
      (insertKey s l).Pairwise (fun a b => keyNum a ≤ keyNum b) := by
  intro l
  induction l with
  | nil => intro _; simp [insertKey]
  | cons t ts ih =>
    intro hl
    rcases List.pairwise_cons.mp hl with ⟨ht, hts⟩
    by_cases h : keyNum s ≤ keyNum t
    · rw [insertKey, if_pos h]
      refine List.pairwise_cons.mpr ⟨?_, hl⟩
      intro z hz
      rcases List.mem_cons.mp hz with rfl | hz'
      · exact h
      · exact le_trans h (ht z hz')
    · rw [insertKey, if_neg h]
      refine List.pairwise_cons.mpr ⟨?_, ih hts⟩
      intro z hz
      have hz' : z ∈ s :: ts := (insertKey_perm s ts).subset hz
      rcases List.mem_cons.mp hz' with rfl | hz''
      · omega
      · exact ht z hz''

theorem sortKeys_sorted : ∀ (l : List String),
    (sortKeys l).Pairwise (fun a b => keyNum a ≤ keyNum b) := by
  intro l
  induction l with
  | nil => simp [sortKeys]
  | cons x xs ih =>
    have heq : sortKeys (x :: xs) = insertKey x (sortKeys xs) := rfl
    rw [heq]
    exact insertKey_le_pairwise ih

theorem arrayIndexKey_inj {a b : String} (ha : isArrayIndexKey a = true)
    (hb : isArrayIndexKey b = true) (h : keyNum a = keyNum b) : a = b := by
  simp only [isArrayIndexKey, Bool.and_eq_true, decide_eq_true_eq] at ha hb
  rw [← ha.1, ← hb.1, h]

theorem jsKeyOrder_enumBefore (vals : List String) :
    (jsKeyOrder (dedupFirst vals)).Pairwise (enumBefore vals) := by
  rw [jsKeyOrder, List.pairwise_append]
  refine ⟨?_, ?_, ?_⟩
  · have hle := sortKeys_sorted ((dedupFirst vals).filter isArrayIndexKey)
    have hnd : (sortKeys ((dedupFirst vals).filter isArrayIndexKey)).Nodup :=
      ((sortKeys_perm _).nodup_iff).mpr ((dedupFirst_nodup vals).filter _)
    refine (hle.and hnd).imp_of_mem ?_
    intro a b ha hb hab
    have ha' : isArrayIndexKey a = true :=
      (List.mem_filter.mp ((sortKeys_perm _).subset ha)).2
    have hb' : isArrayIndexKey b = true :=
      (List.mem_filter.mp ((sortKeys_perm _).subset hb)).2
    refine Or.inl ⟨ha', hb', ?_⟩
    rcases Nat.lt_or_ge (keyNum a) (keyNum b) with h | h
    · exact h
    · have heq : keyNum a = keyNum b := by omega
      exact absurd (arrayIndexKey_inj ha' hb' heq) hab.2
  · have hpw : ((dedupFirst vals).filter (fun k => !isArrayIndexKey k)).Pairwise
        (fun a b => vals.indexOf a < vals.indexOf b) :=
      (dedupFirst_indexOf_pairwise vals).sublist (List.filter_sublist _)
    refine hpw.imp_of_mem ?_
    intro a b ha hb hab
    have ha' : isArrayIndexKey a = false := by
      have := (List.mem_filter.mp ha).2
      simpa using this
    have hb' : isArrayIndexKey b = false := by
      have := (List.mem_filter.mp hb).2
      simpa using this
    exact Or.inr (Or.inr ⟨ha', hb', hab⟩)
  · intro a ha b hb
    have ha' : isArrayIndexKey a = true :=
      (List.mem_filter.mp ((sortKeys_perm _).subset ha)).2
    have hb' : isArrayIndexKey b = false := by
      have := (List.mem_filter.mp hb).2
      simpa using this
    exact Or.inr (Or.inl ⟨ha', hb'⟩)

theorem insertByNum_map (g : String → Nat) (s : String) :
    ∀ (l : List String), insertByNum (s, g s) (l.map (fun t => (t, g t))) =
      (insertKey s l).map (fun t => (t, g t)) := by
  intro l
  induction l with
  | nil => rfl
  | cons t ts ih =>
    by_cases h : keyNum s ≤ keyNum t
    · simp only [List.map_cons, insertByNum, insertKey, if_pos h]
    · simp only [List.map_cons, insertByNum, insertKey, if_neg h, ih]

theorem sortByNum_map (g : String → Nat) :
    ∀ (l : List String), sortByNum (l.map (fun t => (t, g t))) =
      (sortKeys l).map (fun t => (t, g t)) := by
  intro l
  induction l with
  | nil => rfl
  | cons x xs ih =>
    have heq1 : sortByNum ((x :: xs).map (fun t => (t, g t))) =
        insertByNum (x, g x) (sortByNum (xs.map (fun t => (t, g t)))) := rfl
    have heq2 : sortKeys (x :: xs) = insertKey x (sortKeys xs) := rfl
    rw [heq1, heq2, ih, insertByNum_map]

theorem jsEntries_map (g : String → Nat) (l : List String) :
    jsEntries (l.map (fun s => (s, g s))) = (jsKeyOrder l).map (fun s => (s, g s)) := by
  rw [jsEntries, jsKeyOrder, List.map_append]
  have h1 : (l.map (fun s => (s, g s))).filter (fun p => isArrayIndexKey p.1) =
      (l.filter isArrayIndexKey).map (fun s => (s, g s)) := by
    rw [List.filter_map]
    rfl
  have h2 : (l.map (fun s => (s, g s))).filter (fun p => !isArrayIndexKey p.1) =
      (l.filter (fun k => !isArrayIndexKey k)).map (fun s => (s, g s)) := by
    rw [List.filter_map]
    rfl
  rw [h1, h2, sortByNum_map]

theorem getColumnDist_eq (responses : List RawResponse) (cid : String) :
    getColumnDist responses cid =
      (stableSortDesc (specDistEntries (validVals responses cid)),
       (validVals responses cid).length) := by
  show (stableSortDesc ((jsEntries ((validVals responses cid).foldl bump [])).map
      (fun p => ⟨p.1, p.2, pct p.2 (validVals responses cid).length⟩)),
    (validVals responses cid).length) = _
  rw [dist_eq_spec, jsEntries_map, List.map_map]
  rfl

/-- C2 counterexample, two parts.  First: on a response whose raw value is
the single space `" "`, `getColumnDist` produces the entry named `""` (the
empty string) with count 1, and `totalValid = 1` — the guard tests emptiness
before trimming, so the claim's "counts occurrences of each distinct
non-empty trimmed value (empty/missing values excluded)" fails.  Second: on
the values `"10"` then `"9"` (both with count 1), the entries come out
`["9", "10"]`, not in first-occurrence order — `Object.entries` lists
array-index-like keys first in ascending numeric order, so the claimed
first-occurrence tie-break also fails. -/
theorem C2_cex :
    ((getColumnDist [[("q0", " ")]] "q0").1.map DistEntry.name = [""] ∧
      (getColumnDist [[("q0", " ")]] "q0").2 = 1) ∧
    (getColumnDist [[("q0", "10")], [("q0", "9")]] "q0").1.map DistEntry.name =
      ["9", "10"] := by
  decide

/-- C2 (amended): for every response list and column id, `totalValid` is the
number of responses whose raw value is present and non-empty (before
trimming); the entries are exactly the distinct trimmed forms of those raw
values in record enumeration order, each carrying its multiplicity and the
percentage `count/totalValid·100` rounded to one decimal, stably sorted by
count descending; so consecutive entries are ordered by count descending,
with ties broken by `Object.entries` enumeration order: array-index-like
values first in ascending numeric order, then the rest in first-occurrence
order. -/
theorem C2_distribution (responses : List RawResponse) (cid : String) :
    (getColumnDist responses cid).2 = (validVals responses cid).length ∧
    (getColumnDist responses cid).1 =
      stableSortDesc (specDistEntries (validVals responses cid)) ∧
    (getColumnDist responses cid).1.Pairwise (fun a b =>
      b.value < a.value ∨ (a.value = b.value ∧
        enumBefore (validVals responses cid) a.name b.name)) := by
  have hpair := getColumnDist_eq responses cid
  refine ⟨by rw [hpair], by rw [hpair], ?_⟩
  · rw [hpair]
    show (stableSortDesc (specDistEntries (validVals responses cid))).Pairwise _
    rw [stableSortDesc, List.pairwise_map]
    have hsorted := sortTagged_pairwise (specDistEntries (validVals responses cid)).enum
      (List.nodup_enum_map_fst _)
    refine hsorted.imp_of_mem ?_
    intro a b ha hb hR
    have ha' : a ∈ (specDistEntries (validVals responses cid)).enum :=
      (sortTagged_perm _).subset ha
    have hb' : b ∈ (specDistEntries (validVals responses cid)).enum :=
      (sortTagged_perm _).subset hb
    simp only [entryBefore, Bool.or_eq_true, Bool.and_eq_true, decide_eq_true_eq] at hR
    rcases hR with hv | ⟨hv, hij⟩
    · exact Or.inl hv
    · refine Or.inr ⟨hv, ?_⟩
      obtain ⟨i, ea⟩ := a
      obtain ⟨j, eb⟩ := b
      simp only at hij ⊢
      have hga := List.mk_mem_enum_iff_getElem?.mp ha'
      have hgb := List.mk_mem_enum_iff_getElem?.mp hb'
      rw [← List.get?_eq_getElem?, List.get?_eq_some] at hga hgb
      obtain ⟨hilt, hea⟩ := hga
      obtain ⟨hjlt, heb⟩ := hgb
      have hlenE : (specDistEntries (validVals responses cid)).length =
          (jsKeyOrder (dedupFirst (validVals responses cid))).length := by
        simp [specDistEntries]
      have hil : i < (jsKeyOrder (dedupFirst (validVals responses cid))).length := by omega
      have hjl : j < (jsKeyOrder (dedupFirst (validVals responses cid))).length := by omega
      have hname_a : ea.name =
          (jsKeyOrder (dedupFirst (validVals responses cid))).get ⟨i, hil⟩ := by
        rw [← hea]
        simp only [specDistEntries]
        rw [List.get_map]
      have hname_b : eb.name =
          (jsKeyOrder (dedupFirst (validVals responses cid))).get ⟨j, hjl⟩ := by
        rw [← heb]
        simp only [specDistEntries]
        rw [List.get_map]
      have hpw := jsKeyOrder_enumBefore (validVals responses cid)
      rw [List.pairwise_iff_get] at hpw
      have := hpw ⟨i, hil⟩ ⟨j, hjl⟩ hij
      rw [hname_a, hname_b]
      exact this

theorem abs_list_sum_le (l : List ℚ) : |l.sum| ≤ (l.map abs).sum := by
  induction l with
  | nil => simp
  | cons x xs ih =>
    simp only [List.sum_cons, List.map_cons]
    calc |x + xs.sum| ≤ |x| + |xs.sum| := abs_add _ _
      _ ≤ |x| + (xs.map abs).sum := by linarith

theorem list_sum_map_sub {α : Type} (l : List α) (f g : α → ℚ) :
    (l.map (fun a => f a - g a)).sum = (l.map f).sum - (l.map g).sum := by
  induction l with
  | nil => simp
  | cons x xs ih =>
    simp only [List.map_cons, List.sum_cons, ih]
    ring

theorem list_sum_const {α : Type} (l : List α) (c : ℚ) :
    (l.map (fun _ => c)).sum = l.length * c := by
  induction l with
  | nil => simp
  | cons x xs ih =>
    simp only [List.map_cons, List.sum_cons, ih, List.length_cons]
    push_cast
    ring

theorem pct_close (c t : Nat) (ht : 0 < t) :
    |pct c t - (c : ℚ) * 100 / t| ≤ 1 / 20 := by
  rw [pct, if_pos ht, round1]
  have h := abs_sub_round (10 * ((c : ℚ) * 100 / t))
  rw [abs_sub_comm] at h
  have heq : ((round (10 * ((c : ℚ) * 100 / t)) : ℤ) : ℚ) / 10 - (c : ℚ) * 100 / t
      = (((round (10 * ((c : ℚ) * 100 / t)) : ℤ) : ℚ) - 10 * ((c : ℚ) * 100 / t)) / 10 := by
    ring
  rw [heq, abs_div, show |(10 : ℚ)| = 10 by norm_num]
  linarith

theorem sum_count_dedupFirst (l : List String) :
    ((dedupFirst l).map (fun s => l.count s)).sum = l.length := by
  have h1 : (dedupFirst l).toFinset = l.toFinset := by
    apply Finset.ext
    intro a
    simp [List.mem_toFinset, mem_dedupFirst]
  calc ((dedupFirst l).map (fun s => l.count s)).sum
      = (dedupFirst l).toFinset.sum (fun s => l.count s) :=
        (List.sum_toFinset _ (dedupFirst_nodup l)).symm
    _ = l.toFinset.sum (fun s => l.count s) := by rw [h1]
    _ = l.length := List.sum_toFinset_count_eq_length l

/-- C9: when `totalValid > 0`, the sum of the one-decimal percentages over a
column's distribution entries lies within `0.1 · k` of 100, where `k` is the
number of distinct values (the length of the entry list): each rounded
percentage is within `0.05` of its exact value and the exact values sum to
exactly 100. -/
theorem C9_pct_sum (responses : List RawResponse) (cid : String)
    (h : 0 < (getColumnDist responses cid).2) :
    100 - ((getColumnDist responses cid).1.length : ℚ) / 10 ≤
      ((getColumnDist responses cid).1.map DistEntry.percentage).sum ∧
    ((getColumnDist responses cid).1.map DistEntry.percentage).sum ≤
      100 + ((getColumnDist responses cid).1.length : ℚ) / 10 := by
  have hpair := getColumnDist_eq responses cid
  have ht : 0 < (validVals responses cid).length := by
    rw [hpair] at h
    exact h
  have hperm : ((getColumnDist responses cid).1).Perm
      (specDistEntries (validVals responses cid)) := by
    rw [hpair]
    exact stableSortDesc_perm _
  have hsum : ((getColumnDist responses cid).1.map DistEntry.percentage).sum =
      ((specDistEntries (validVals responses cid)).map DistEntry.percentage).sum :=
    (hperm.map DistEntry.percentage).sum_eq
  have hlen : (getColumnDist responses cid).1.length =
      (jsKeyOrder (dedupFirst (validVals responses cid))).length := by
    rw [hperm.length_eq]
    simp [specDistEntries]
  have hEmap : (specDistEntries (validVals responses cid)).map DistEntry.percentage =
      (jsKeyOrder (dedupFirst (validVals responses cid))).map
        (fun s => pct ((validVals responses cid).count s) (validVals responses cid).length) := by
    simp only [specDistEntries, List.map_map]
    rfl
  have hexact : ((dedupFirst (validVals responses cid)).map
      (fun s => ((validVals responses cid).count s : ℚ) * 100 /
        ((validVals responses cid).length : ℚ))).sum = 100 := by
    rw [show (fun s => ((validVals responses cid).count s : ℚ) * 100 /
          ((validVals responses cid).length : ℚ)) =
        (fun s => ((validVals responses cid).count s : ℚ) *
          (100 / ((validVals responses cid).length : ℚ)))
      from funext (fun s => by ring)]
    rw [List.sum_map_mul_right]
    have h2 : ((dedupFirst (validVals responses cid)).map
        (fun s => (((validVals responses cid).count s : ℕ) : ℚ))).sum =
        ((validVals responses cid).length : ℚ) := by
      have h3 := congrArg (Nat.cast : ℕ → ℚ) (sum_count_dedupFirst (validVals responses cid))
      rw [Nat.cast_list_sum, List.map_map] at h3
      exact h3
    rw [h2]
    field_simp
  have hexact2 : ((jsKeyOrder (dedupFirst (validVals responses cid))).map
      (fun s => ((validVals responses cid).count s : ℚ) * 100 /
        ((validVals responses cid).length : ℚ))).sum = 100 := by
    rw [((jsKeyOrder_perm (dedupFirst (validVals responses cid))).map _).sum_eq]
    exact hexact
  have hdiff : |((jsKeyOrder (dedupFirst (validVals responses cid))).map
      (fun s => pct ((validVals responses cid).count s)
        (validVals responses cid).length)).sum - 100| ≤
      ((jsKeyOrder (dedupFirst (validVals responses cid))).length : ℚ) / 20 := by
    rw [← hexact2, ← list_sum_map_sub]
    refine le_trans (abs_list_sum_le _) ?_
    rw [List.map_map]
    refine le_trans (List.sum_le_sum (g := fun _ => (1 / 20 : ℚ)) ?_) ?_
    · intro s _
      exact pct_close _ _ ht
    · rw [list_sum_const]
      rw [div_eq_mul_inv]
      ring_nf
      exact le_refl _
  rw [hsum, hEmap, hlen]
  have habs := abs_le.mp hdiff
  have hk0 : (0 : ℚ) ≤ ((jsKeyOrder (dedupFirst (validVals responses cid))).length : ℚ) :=
    Nat.cast_nonneg _
  constructor
  · linarith [habs.1]
  · linarith [habs.2]

/-- Witness for C9 at a concrete three-response column (counts 2 and 1;
percentages 66.7 and 33.3, summing to 100 within the bound for k = 2). -/
theorem C9_pct_sum_w :
    100 - (((getColumnDist [[("q0", "a")], [("q0", "b")], [("q0", "a")]] "q0").1.length : ℚ)) / 10 ≤
      ((getColumnDist [[("q0", "a")], [("q0", "b")], [("q0", "a")]] "q0").1.map
        DistEntry.percentage).sum ∧
    ((getColumnDist [[("q0", "a")], [("q0", "b")], [("q0", "a")]] "q0").1.map
        DistEntry.percentage).sum ≤
      100 + (((getColumnDist [[("q0", "a")], [("q0", "b")], [("q0", "a")]] "q0").1.length : ℚ)) / 10 :=
  C9_pct_sum [[("q0", "a")], [("q0", "b")], [("q0", "a")]] "q0" (by decide)

/-- C1 counterexample, two parts.  First: on the file `Q\na\nb\nc\nd` the
column's four values `a b c d` satisfy none of the claim's exclusion
conditions (`specVisualizable` returns `true`: the identifier clause needs
`totalValid > 5`), yet the code marks the column not visualizable, because
its actual rule is `unique/total < 0.9` with no `totalValid > 5` guard.
Second: the code drops only headers whose lowercase text equals
`"timestamp"` exactly, so the header `my timestamp` — which contains
"timestamp" and should be "excluded outright" per the claim — produces a
column. -/
theorem C1_cex :
    (parseCSV_v2 "Q\na\nb\nc\nd").1 =
      [{ id := "col_0", label := "Q", type := "categorical", isVisualizable := false }] ∧
    specVisualizable ["a", "b", "c", "d"] = true ∧
    (parseCSV_v2 "Q\na\nb\nc\nd").2 =
      [[("col_0", "a")], [("col_0", "b")], [("col_0", "c")], [("col_0", "d")]] ∧
    (parseCSV_v2 "my timestamp\nfoo\nbar").1.map SurveyColumn.label = ["my timestamp"] := by
  decide

/-- C1 (amended): the quoted-CSV parser builds one column per raw header
whose lowercase text is not exactly `"timestamp"`, and a column's
`isVisualizable` flag is true exactly when its non-empty trimmed values
satisfy `totalValid > 1`, `uniqueCount > 1`, and
`uniqueCount / totalValid < 0.9` (in cleared integer form); no
average-length, email-shape, or 50-category condition exists in the code. -/
theorem C1_classifier (rawHeaders : List String) (tempResponses : List (List String)) :
    (∀ p ∈ columnsV2 rawHeaders tempResponses,
       (p.2.isVisualizable = true ↔
         1 < (colValuesV2 tempResponses p.1).length ∧
         1 < (colValuesV2 tempResponses p.1).toFinset.card ∧
         10 * (colValuesV2 tempResponses p.1).toFinset.card <
           9 * (colValuesV2 tempResponses p.1).length) ∧
       jsToLower p.2.label ≠ "timestamp") ∧
    (∀ csv : String,
      (parseCSV_v2 csv).1 = (columnsV2 (v2HeadersOf csv) (v2RowsOf csv)).map Prod.snd) := by
  constructor
  · intro p hp
    simp only [columnsV2, List.mem_filterMap, List.mem_enum_iff_get?] at hp
    obtain ⟨q, hq, hres⟩ := hp
    by_cases hts : jsToLower q.2 = "timestamp"
    · rw [if_pos hts] at hres
      cases hres
    · rw [if_neg hts] at hres
      obtain rfl := Option.some.injEq .. ▸ hres
      constructor
      · simp [classifyV2]
      · simpa using hts
  · intro csv
    rw [parseCSV_v2, v2HeadersOf, v2RowsOf]
    cases hl : (splitLines csv.data).filter (fun l => trimChars l ≠ []) with
    | nil => simp [columnsV2]
    | cons hdr rest => simp

/-- Witness for C1 at a concrete classified column (three values, two
distinct): the amended rule classifies it visualizable. -/
theorem C1_classifier_w :
    (⟨"col_0", "Q", "categorical", classifyV2 (colValuesV2 [["a"], ["a"], ["b"]] 0)⟩ :
      SurveyColumn).isVisualizable = true := by
  have h := (C1_classifier ["Q"] [["a"], ["a"], ["b"]]).1
    (0, ⟨"col_0", "Q", "categorical", classifyV2 (colValuesV2 [["a"], ["a"], ["b"]] 0)⟩)
    (by decide)
  exact h.1.mpr (by decide)

end Peergrade
